import Mathlib

/-!
Shallow embedding of the `kvstructs` key/value encoding layer.

Byte strings (`bytes::Bytes`, `&[u8]`, `BytesMut`) are modelled as `List Nat`
whose elements are below 256 wherever a `u8` lives; `u64` and `usize`
quantities are `Nat`, with `% 2 ^ 64` (and `% 2 ^ 32` for `u32` casts)
inserted where the source's fixed width matters.
-/

namespace Kvstructs

/-- Model of `usize::checked_sub`: `none` exactly when the subtraction would
underflow. -/
def checkedSub (a b : Nat) : Option Nat :=
  if a < b then none else some (a - b)

/-- Model of Rust's lexicographic slice comparison (`<[u8] as Ord>::cmp`):
elementwise order, with the shorter slice smaller on a common prefix. -/
def compareBytes : List Nat → List Nat → Ordering
  | [], [] => .eq
  | [], _ :: _ => .lt
  | _ :: _, [] => .gt
  | a :: l₁, b :: l₂ =>
    if a < b then .lt else if b < a then .gt else compareBytes l₁ l₂

/-- Big-endian base-256 digits: `beBytes n x` is the `n`-byte big-endian
encoding of `x % 2 ^ (8 * n)`; `u64::to_be_bytes` is `beBytes 8`. -/
def beBytes : Nat → Nat → List Nat
  | 0, _ => []
  | n + 1, x => beBytes n (x / 256) ++ [x % 256]

/-- Model of `TIMESTAMP_SIZE` (src/key.rs:13): `size_of::<u64>() = 8`. -/
def TIMESTAMP_SIZE : Nat := 8

/-- Model of `u64::MAX`. -/
def U64MAX : Nat := 2 ^ 64 - 1

/-- Model of `Key::with_timestamp` (src/key.rs:70-74): appends the big-endian
bytes of `u64::MAX - ts` to the key's data. -/
def withTimestamp (data : List Nat) (ts : Nat) : List Nat :=
  data ++ beBytes 8 (U64MAX - ts)

/-- Model of `compare_key_in` (src/key.rs:243-254): split each operand at
`len.saturating_sub(8)`, compare the prefixes, and on a tie compare the
8-byte suffixes. -/
def compareKeyIn (me other : List Nat) : Ordering :=
  match compareBytes (me.take (me.length - TIMESTAMP_SIZE))
      (other.take (other.length - TIMESTAMP_SIZE)) with
  | .lt => .lt
  | .eq => compareBytes (me.drop (me.length - TIMESTAMP_SIZE))
      (other.drop (other.length - TIMESTAMP_SIZE))
  | .gt => .gt

/-- Model of `same_key_in` (src/key.rs:268-284). Note the source's second
`checked_sub` match: its `None` arm yields `me` (not `other`), so for equal
lengths below 8 the function compares `me` with itself. -/
def sameKeyIn (me other : List Nat) : Bool :=
  if me.length ≠ other.length then false
  else
    let s := match checkedSub me.length TIMESTAMP_SIZE with
      | none => me
      | some sz => me.take sz
    let o := match checkedSub other.length TIMESTAMP_SIZE with
      | none => me
      | some sz => other.take sz
    s == o

/-- Model of `KeyExt::parse_key` (src/key.rs:433-440): the bytes before the
8-byte suffix, or the whole key when it is shorter than 8 bytes. -/
def parseKey (data : List Nat) : List Nat :=
  match checkedSub data.length TIMESTAMP_SIZE with
  | none => data
  | some sz => data.take sz

/-- Model of `KeyMut::with_timestamp` (src/key_mut.rs:103-106): `put_u64(ts)`
appends the big-endian bytes of `ts` itself. -/
def keyMutWithTimestamp (data : List Nat) (ts : Nat) : List Nat :=
  data ++ beBytes 8 ts

/-- Model of `KeyMut::set_timestamp` (src/key_mut.rs:139-145): append
`ts.to_be_bytes()` when the key is shorter than 8 bytes, else overwrite the
last 8 bytes with `ts.to_be_bytes()`. -/
def keyMutSetTimestamp (data : List Nat) (ts : Nat) : List Nat :=
  match checkedSub data.length TIMESTAMP_SIZE with
  | none => data ++ beBytes 8 ts
  | some sz => data.take sz ++ beBytes 8 ts

/-- Model of `KeyExt::has_suffix` (src/key.rs:494-503): with
`pl = suffix.len() - 1`, it returns false when `src.len() <= pl` and
otherwise compares `src[pl..]` with the suffix (both operands run through
`parse_key` first). -/
def hasSuffixOp (a b : List Nat) : Bool :=
  let src := parseKey a
  let sfx := parseKey b
  let pl := sfx.length - 1
  if src.length ≤ pl then false
  else src.drop pl == sfx

/-- Model of `KeyExt::longest_prefix` (src/key.rs:507-520): `n` starts at
`max - 1` and becomes the first mismatching index if one exists below `max`;
the result is `k1[..n]` (both operands run through `parse_key` first). -/
def longestPrefixOp (a b : List Nat) : List Nat :=
  let k1 := parseKey a
  let k2 := parseKey b
  let mx := min k1.length k2.length
  let n := match (List.range mx).find? (fun i => k1.getD i 0 != k2.getD i 0) with
    | some i => i
    | none => mx - 1
  k1.take n

/-- Model of `MAX_VARINT_LEN64` (src/lib.rs:164). -/
def MAX_VARINT_LEN64 : Nat := 10

/-- Model of the encoding loop shared by `binary_uvarint_allocate`
(src/lib.rs:202-210) and `put_binary_uvarint_to_vec` (src/lib.rs:193-199):
while `x >= 0x80` push `(x as u8) | 0x80` and shift right by 7; finally push
`x as u8`. -/
def putUvarint (x : Nat) : List Nat :=
  if x < 128 then [x % 256]
  else (x % 256 ||| 128) :: putUvarint (x >>> 7)
termination_by x
decreasing_by
  simp only [Nat.shiftRight_eq_div_pow]
  exact Nat.div_lt_self (by omega) (by norm_num)

/-- Model of the loop of `binary_uvarint` (src/lib.rs:175-190). The state is
the byte index `idx`, the `u64` accumulator `x` and the shift `s`; `u64` and
`usize` are 64 bits wide, so accumulation is reduced `% 2 ^ 64` and the
overflow sentinel `!(idx + 1)` is `2 ^ 64 - 1 - (idx + 1)`. Exhausting the
buffer without a terminating byte yields `(0, 0)`. -/
def uvarintLoop : List Nat → Nat → Nat → Nat → Nat × Nat
  | [], _, _, _ => (0, 0)
  | b :: rest, idx, x, s =>
    if b < 128 then
      if MAX_VARINT_LEN64 ≤ idx ∨ (idx = MAX_VARINT_LEN64 - 1 ∧ 1 < b) then
        (0, 2 ^ 64 - 1 - (idx + 1))
      else ((x ||| b <<< s) % 2 ^ 64, idx + 1)
    else uvarintLoop rest (idx + 1) ((x ||| (b &&& 127) <<< s) % 2 ^ 64) (s + 7)

/-- Model of `binary_uvarint` (src/lib.rs:175-190). -/
def binaryUvarint (buf : List Nat) : Nat × Nat :=
  uvarintLoop buf 0 0 0

/-- Model of `Value` (src/value.rs:35-41); `version` is a helper field that
is never serialized. -/
structure Value where
  meta : Nat
  user_meta : Nat
  expires_at : Nat
  version : Nat
  value : List Nat
deriving DecidableEq

/-- Model of `size_variant` (src/value.rs:123-133): the do-while loop counts
one byte per 7-bit chunk of `x`, at least one. -/
def sizeVariant (x : Nat) : Nat :=
  if x >>> 7 = 0 then 1 else 1 + sizeVariant (x >>> 7)
termination_by x
decreasing_by
  simp only [Nat.shiftRight_eq_div_pow]
  refine Nat.div_lt_self ?_ (by norm_num)
  rcases Nat.eq_zero_or_pos x with rfl | h
  · simp [Nat.shiftRight_eq_div_pow] at *
  · exact h

/-- Model of `ValueExt::encoded_size` (src/value.rs:182-186):
`(payload_len + 2 + size_variant(expires_at)) as u32`; the `as u32` cast
reduces the `usize` sum modulo `2 ^ 32`. -/
def encodedSize (v : Value) : Nat :=
  (v.value.length + 2 + sizeVariant v.expires_at) % 2 ^ 32

/-- Model of the bytes written by `ValueExt::encode` (src/value.rs:195-200):
meta, user meta, the uvarint of `expires_at`, then the payload. -/
def encodeValue (v : Value) : List Nat :=
  v.meta :: v.user_meta :: (putUvarint v.expires_at ++ v.value)

/-- Model of `ValueExt::decode` (src/value.rs:230-243); `none` models the
panic on a buffer shorter than 2 bytes. -/
def decodeValue : List Nat → Option Value
  | m :: u :: rest =>
    some { meta := m, user_meta := u,
           expires_at := (binaryUvarint rest).1, version := 0,
           value := rest.drop (binaryUvarint rest).2 }
  | _ => none

/-- Model of `EncodedValue` (src/value_enc.rs:18-21): the serialized bytes
plus the cached byte length of the expiration varint. -/
structure EncodedValue where
  data : List Nat
  expires_sz : Nat
deriving DecidableEq

/-- Model of `ValueExt::to_encoded` (src/value.rs:210-225): build
`meta ++ user_meta ++ uvarint(expires_at)`, record its length minus 2 as
`expires_sz`, and chain the payload. -/
def toEncoded (v : Value) : EncodedValue :=
  let metaPart := v.meta :: v.user_meta :: putUvarint v.expires_at
  { data := metaPart ++ v.value, expires_sz := metaPart.length - 2 }

/-- Model of `RawKeyPointer` (src/raw_key_pointer.rs:11-14): a raw address
and a length, with no ownership of the pointed-to bytes. -/
structure RawKeyPointer where
  ptr : Nat
  l : Nat
deriving DecidableEq

/-- Model of `Deref for RawKeyPointer` (src/raw_key_pointer.rs:54-60): the
slice reconstructed from the raw parts, given the contents `mem` of memory. -/
def derefRawKey (mem : Nat → Nat) (p : RawKeyPointer) : List Nat :=
  (List.range p.l).map fun i => mem (p.ptr + i)

/-- Model of `PartialEq for RawKeyPointer` (src/raw_key_pointer.rs:69-73):
raw address identity, `self.ptr.eq(&other.ptr)`; the lengths and the
pointed-to bytes are not consulted. -/
def rawKeyPointerEq (p q : RawKeyPointer) : Bool :=
  p.ptr == q.ptr

/-- Model of `Ord for RawKeyPointer` (src/raw_key_pointer.rs:85-91): both
pointers are dereferenced to `KeyRef`s, whose order is `compare_key` on the
pointed-to slices. -/
def rawKeyPointerCmp (mem : Nat → Nat) (p q : RawKeyPointer) : Ordering :=
  compareKeyIn (derefRawKey mem p) (derefRawKey mem q)

/-- Reading of `parse_key` used by the claim under test: the whole key when
its length is at most 8, else the first `length - 8` bytes. This follows the
spec's words; the source's `parse_key` keeps the whole key only below
length 8. -/
def specParseKey (data : List Nat) : List Nat :=
  if data.length ≤ 8 then data else data.take (data.length - 8)

/-! ## Disjoint bitwise-or is addition -/

theorem lor_mul_two_pow {s : Nat} (a b : Nat) (h : a < 2 ^ s) :
    a ||| b * 2 ^ s = a + b * 2 ^ s := by
  induction s generalizing a b with
  | zero =>
    have ha : a = 0 := by simpa using h
    subst ha
    simp
  | succ s ih =>
    rcases Nat.eq_zero_or_pos b with rfl | hb
    · simp
    rcases Nat.eq_zero_or_pos a with rfl | ha
    · simp
    have hc2 : b * 2 ^ (s + 1) = 2 * (b * 2 ^ s) := by ring
    have hcne : b * 2 ^ (s + 1) ≠ 0 := by positivity
    have hone : a ||| b * 2 ^ (s + 1) = Nat.bitwise or a (b * 2 ^ (s + 1)) := rfl
    rw [hone, Nat.bitwise_of_ne_zero (by omega) hcne]
    have hbodd : Nat.bodd (b * 2 ^ (s + 1)) = false := by
      rw [hc2, Nat.bodd_mul, show Nat.bodd 2 = false from by decide, Bool.false_and]
    have hdiv : b * 2 ^ (s + 1) / 2 = b * 2 ^ s := by
      rw [hc2]
      exact Nat.mul_div_cancel_left _ (by norm_num)
    rw [hbodd, hdiv]
    have hback : Nat.bitwise or (a / 2) (b * 2 ^ s) = a / 2 ||| b * 2 ^ s := rfl
    have ha2 : a / 2 < 2 ^ s := by
      rw [Nat.div_lt_iff_lt_mul (by norm_num : (0:Nat) < 2)]
      calc a < 2 ^ (s + 1) := h
        _ = 2 ^ s * 2 := by rw [pow_succ]
    rw [hback, ih _ _ ha2, Nat.bit_val]
    simp only [Bool.or_false]
    have hsplit := Nat.bodd_add_div2 a
    rw [Nat.div2_val] at hsplit
    have hpow : (2:Nat) ^ (s + 1) = 2 ^ s * 2 := by rw [pow_succ]
    rw [hpow, show b * (2 ^ s * 2) = 2 * (b * 2 ^ s) from by ring]
    omega

theorem lor_shiftLeft_eq_add {s : Nat} (a b : Nat) (h : a < 2 ^ s) :
    a ||| b <<< s = a + b * 2 ^ s := by
  rw [Nat.shiftLeft_eq]
  exact lor_mul_two_pow a b h

theorem land_127_eq_mod (y : Nat) : y &&& 127 = y % 128 := by
  have h7 : (127 : Nat) = 2 ^ 7 - 1 := by norm_num
  rw [h7, Nat.and_pow_two_sub_one_eq_mod]

theorem enc_byte_eq (x : Nat) : x % 256 ||| 128 = x % 128 + 128 := by
  have hbase : x % 128 ||| 128 = x % 128 + 128 := by
    have h := @lor_mul_two_pow 7 (x % 128) 1 (by omega)
    norm_num at h
    exact h
  have h1 : x % 256 = x % 128 + 128 * (x / 128 % 2) := by omega
  rcases Nat.mod_two_eq_zero_or_one (x / 128) with hc | hc
  · rw [h1, hc, Nat.mul_zero, Nat.add_zero]
    exact hbase
  · rw [h1, hc, Nat.mul_one, ← hbase, Nat.lor_assoc]
    have h128 : (128 : Nat) ||| 128 = 128 := Nat.or_self 128
    rw [h128, hbase]

/-! ## Varint encoder equations and length bounds -/

theorem putUvarint_lt (x : Nat) (h : x < 128) : putUvarint x = [x] := by
  rw [putUvarint, if_pos h, Nat.mod_eq_of_lt (by omega)]

theorem putUvarint_ge (x : Nat) (h : 128 ≤ x) :
    putUvarint x = (x % 128 + 128) :: putUvarint (x >>> 7) := by
  rw [putUvarint, if_neg (by omega), enc_byte_eq]

theorem putUvarint_length_pos (x : Nat) : 0 < (putUvarint x).length := by
  rw [putUvarint]
  split <;> simp

theorem putUvarint_length_le :
    ∀ x k, 1 ≤ k → x < 2 ^ (7 * k) → (putUvarint x).length ≤ k := by
  intro x
  induction x using Nat.strongRecOn with
  | ind x ih =>
    intro k hk hx
    by_cases h : x < 128
    · rw [putUvarint_lt x h]
      simpa using hk
    · rw [putUvarint_ge x (by omega)]
      simp only [List.length_cons]
      have hk2 : 2 ≤ k := by
        by_contra hcon
        have hk1 : k = 1 := by omega
        subst hk1
        norm_num at hx
        omega
      have hlt : x >>> 7 < x := by
        rw [Nat.shiftRight_eq_div_pow]
        exact Nat.div_lt_self (by omega) (by norm_num)
      have hx7 : x >>> 7 < 2 ^ (7 * (k - 1)) := by
        rw [Nat.shiftRight_eq_div_pow,
          Nat.div_lt_iff_lt_mul (by positivity : (0:Nat) < 2 ^ 7)]
        calc x < 2 ^ (7 * k) := hx
          _ = 2 ^ (7 * (k - 1)) * 2 ^ 7 := by
              rw [← pow_add]
              congr 1
              omega
      have := ih _ hlt (k - 1) (by omega) hx7
      omega

/-! ## The decoder inverts the encoder -/

theorem uvarintLoop_putUvarint :
    ∀ x rest idx acc s, s = 7 * idx → acc < 2 ^ s →
      acc + x * 2 ^ s < 2 ^ 64 → idx + (putUvarint x).length ≤ 10 →
      uvarintLoop (putUvarint x ++ rest) idx acc s
        = (acc + x * 2 ^ s, idx + (putUvarint x).length) := by
  intro x
  induction x using Nat.strongRecOn with
  | ind x ih =>
    intro rest idx acc s hs hacc hbound hlen
    by_cases h : x < 128
    · rw [putUvarint_lt x h] at hlen ⊢
      simp only [List.length_singleton] at hlen ⊢
      rw [List.singleton_append]
      simp only [uvarintLoop]
      rw [if_pos h, if_neg ?grd]
      case grd =>
        simp only [MAX_VARINT_LEN64]
        push_neg
        refine ⟨by omega, fun hidx => ?_⟩
        by_contra hx2
        push_neg at hx2
        subst hs
        subst hidx
        norm_num at hbound
        omega
      rw [lor_shiftLeft_eq_add acc x hacc, Nat.mod_eq_of_lt hbound]
    · rw [putUvarint_ge x (by omega)] at hlen ⊢
      simp only [List.length_cons] at hlen
      rw [List.cons_append]
      simp only [uvarintLoop]
      rw [if_neg (by omega : ¬x % 128 + 128 < 128)]
      have hdig : (x % 128 + 128) &&& 127 = x % 128 := by
        rw [land_127_eq_mod]
        omega
      rw [hdig, lor_shiftLeft_eq_add acc (x % 128) hacc]
      have hpow7 : (2:Nat) ^ (s + 7) = 2 ^ s * 128 := by
        rw [pow_add]
        norm_num
      have hb7 : acc + x % 128 * 2 ^ s < 2 ^ (s + 7) := by
        rw [hpow7]
        have hm : x % 128 * 2 ^ s ≤ 127 * 2 ^ s :=
          Nat.mul_le_mul_right _ (by omega)
        omega
      have hrecpos := putUvarint_length_pos (x >>> 7)
      have hs63 : s + 7 ≤ 63 := by omega
      have hle64 : (2:Nat) ^ (s + 7) ≤ 2 ^ 64 :=
        Nat.pow_le_pow_right (by norm_num) (by omega)
      rw [Nat.mod_eq_of_lt (by omega)]
      have hlt : x >>> 7 < x := by
        rw [Nat.shiftRight_eq_div_pow]
        exact Nat.div_lt_self (by omega) (by norm_num)
      have hsplit : acc + x % 128 * 2 ^ s + x >>> 7 * 2 ^ (s + 7)
          = acc + x * 2 ^ s := by
        rw [Nat.shiftRight_eq_div_pow, hpow7,
          show (2:Nat) ^ 7 = 128 from by norm_num]
        have hdm : x % 128 + 128 * (x / 128) = x := Nat.mod_add_div x 128
        conv_rhs => rw [← hdm]
        ring
      rw [ih _ hlt rest (idx + 1) _ (s + 7) (by omega) hb7 (by omega : acc + x % 128 * 2 ^ s + x >>> 7 * 2 ^ (s + 7) < 2 ^ 64) (by omega)]
      simp only [Prod.mk.injEq, List.length_cons]
      exact ⟨hsplit, by omega⟩

theorem binaryUvarint_putUvarint (e : Nat) (rest : List Nat) (he : e < 2 ^ 64) :
    binaryUvarint (putUvarint e ++ rest) = (e, (putUvarint e).length) := by
  have hlen : (putUvarint e).length ≤ 10 :=
    putUvarint_length_le e 10 (by norm_num)
      (by calc e < 2 ^ 64 := he
            _ ≤ 2 ^ (7 * 10) := by norm_num)
  have h := uvarintLoop_putUvarint e rest 0 0 0 (by norm_num) (by norm_num)
    (by simpa using he) (by omega)
  simpa [binaryUvarint] using h

/-! ## Lexicographic comparison infrastructure -/

theorem compareBytes_refl (l : List Nat) : compareBytes l l = .eq := by
  induction l with
  | nil => rfl
  | cons a l ih => simp [compareBytes, ih]

theorem compareBytes_eq_iff (l₁ l₂ : List Nat) :
    compareBytes l₁ l₂ = .eq ↔ l₁ = l₂ := by
  induction l₁ generalizing l₂ with
  | nil => cases l₂ <;> simp [compareBytes]
  | cons a l₁ ih =>
    cases l₂ with
    | nil => simp [compareBytes]
    | cons b l₂ =>
      simp only [compareBytes]
      split_ifs with h₁ h₂
      · simp only [List.cons.injEq]
        constructor
        · intro h; cases h
        · rintro ⟨rfl, -⟩; omega
      · simp only [List.cons.injEq]
        constructor
        · intro h; cases h
        · rintro ⟨rfl, -⟩; omega
      · have hab : a = b := by omega
        subst hab
        simp [ih]

theorem compareBytes_append (l₁ l₂ t₁ t₂ : List Nat) (h : l₁.length = l₂.length) :
    compareBytes (l₁ ++ t₁) (l₂ ++ t₂) =
      match compareBytes l₁ l₂ with
      | .eq => compareBytes t₁ t₂
      | o => o := by
  induction l₁ generalizing l₂ with
  | nil =>
    have : l₂ = [] := by
      cases l₂
      · rfl
      · simp at h
    subst this
    simp [compareBytes]
  | cons a l₁ ih =>
    cases l₂ with
    | nil => simp at h
    | cons b l₂ =>
      simp only [List.cons_append, compareBytes]
      split_ifs
      · rfl
      · rfl
      · exact ih l₂ (by simpa using h)

theorem beBytes_length (n x : Nat) : (beBytes n x).length = n := by
  induction n generalizing x with
  | zero => rfl
  | succ n ih => simp [beBytes, ih]

theorem compareBytes_beBytes_lt (n : Nat) :
    ∀ x y, x < y → y < 2 ^ (8 * n) →
      compareBytes (beBytes n x) (beBytes n y) = .lt := by
  induction n with
  | zero =>
    intro x y hxy hy
    simp at hy
    omega
  | succ n ih =>
    intro x y hxy hy
    have hlen : (beBytes n (x / 256)).length = (beBytes n (y / 256)).length := by
      simp [beBytes_length]
    rw [beBytes, beBytes, compareBytes_append _ _ _ _ hlen]
    have hdle : x / 256 ≤ y / 256 := Nat.div_le_div_right (Nat.le_of_lt hxy)
    have hydiv : y / 256 < 2 ^ (8 * n) := by
      rw [Nat.div_lt_iff_lt_mul (by norm_num : (0:Nat) < 256)]
      calc y < 2 ^ (8 * (n + 1)) := hy
        _ = 2 ^ (8 * n) * 256 := by rw [Nat.mul_succ, pow_add]; norm_num
    rcases Nat.lt_or_ge (x / 256) (y / 256) with hd | hd
    · rw [ih _ _ hd hydiv]
    · have hdeq : x / 256 = y / 256 := Nat.le_antisymm hdle hd
      rw [hdeq, compareBytes_refl]
      have hx := Nat.div_add_mod x 256
      have hy' := Nat.div_add_mod y 256
      have hmod : x % 256 < y % 256 := by omega
      simp [compareBytes, hmod]

/-! ## Key comparison: `compare_key_in` and `same_key_in` -/

theorem compareKeyIn_append_eight (k₁ k₂ s₁ s₂ : List Nat)
    (h₁ : s₁.length = 8) (h₂ : s₂.length = 8) :
    compareKeyIn (k₁ ++ s₁) (k₂ ++ s₂) =
      match compareBytes k₁ k₂ with
      | .lt => .lt
      | .eq => compareBytes s₁ s₂
      | .gt => .gt := by
  have e₁ : (k₁ ++ s₁).length - TIMESTAMP_SIZE = k₁.length := by
    simp [h₁, TIMESTAMP_SIZE]
  have e₂ : (k₂ ++ s₂).length - TIMESTAMP_SIZE = k₂.length := by
    simp [h₂, TIMESTAMP_SIZE]
  unfold compareKeyIn
  rw [e₁, e₂, List.take_left, List.take_left, List.drop_left, List.drop_left]

theorem compareKeyIn_eq_iff (a b : List Nat) :
    compareKeyIn a b = .eq ↔ a = b := by
  unfold compareKeyIn
  rcases hcmp : compareBytes (a.take (a.length - TIMESTAMP_SIZE))
      (b.take (b.length - TIMESTAMP_SIZE)) with h | h | h
  · simp only [hcmp]
    constructor
    · intro h; cases h
    · rintro rfl
      rw [compareBytes_refl] at hcmp
      cases hcmp
  · simp only [hcmp, compareBytes_eq_iff]
    rw [compareBytes_eq_iff] at hcmp
    constructor
    · intro hdrop
      calc a = a.take (a.length - TIMESTAMP_SIZE) ++ a.drop (a.length - TIMESTAMP_SIZE) :=
            (List.take_append_drop _ _).symm
        _ = b.take (b.length - TIMESTAMP_SIZE) ++ b.drop (b.length - TIMESTAMP_SIZE) := by
            rw [hcmp, hdrop]
        _ = b := List.take_append_drop _ _
    · rintro rfl; rfl
  · simp only [hcmp]
    constructor
    · intro h; cases h
    · rintro rfl
      rw [compareBytes_refl] at hcmp
      cases hcmp

theorem sameKeyIn_refl (a : List Nat) : sameKeyIn a a = true := by
  unfold sameKeyIn checkedSub
  simp

/-! ## Claim theorems: keys -/

/-- C1. For every byte string `k` and timestamps `t₁ > t₂` (both `u64`),
`compare_key` of `with_timestamp(k, t₁)` and `with_timestamp(k, t₂)` is
`Less`: with equal user-key prefixes, the key carrying the larger (newer)
timestamp sorts first. -/
theorem compare_key_with_timestamp_newer_lt (k : List Nat) (t₁ t₂ : Nat)
    (h64 : t₁ < 2 ^ 64) (hlt : t₂ < t₁) :
    compareKeyIn (withTimestamp k t₁) (withTimestamp k t₂) = .lt := by
  unfold withTimestamp
  rw [compareKeyIn_append_eight _ _ _ _ (beBytes_length 8 _) (beBytes_length 8 _),
    compareBytes_refl]
  have h2 : (2:Nat) ^ 64 = 18446744073709551616 := by norm_num
  have hU : U64MAX = 2 ^ 64 - 1 := rfl
  rw [compareBytes_beBytes_lt 8 _ _ (by omega) (by rw [show 8 * 8 = 64 from rfl]; omega)]

/-- C1 witness: the spec's example, key "apple" with timestamps 100 and 50. -/
theorem compare_key_with_timestamp_newer_lt_witness :
    compareKeyIn (withTimestamp [97, 112, 112, 108, 101] 100)
      (withTimestamp [97, 112, 112, 108, 101] 50) = .lt :=
  compare_key_with_timestamp_newer_lt [97, 112, 112, 108, 101] 100 50
    (by norm_num) (by norm_num)

/-- C2. The `KeyMut` timestamp operations do not invert the timestamp: with
`ts = 0`, `KeyMut::with_timestamp` appends `0u64.to_be_bytes()` (all zeros)
where `Key::with_timestamp` appends `(u64::MAX - 0).to_be_bytes()` (all
255s), and `KeyMut::set_timestamp` on a key that already carries a suffix
overwrites it with the raw bytes of `ts`. -/
theorem keymut_timestamp_not_inverted :
    keyMutWithTimestamp [] 0 = [0, 0, 0, 0, 0, 0, 0, 0]
    ∧ withTimestamp [] 0 = [255, 255, 255, 255, 255, 255, 255, 255]
    ∧ keyMutSetTimestamp [1, 255, 255, 255, 255, 255, 255, 255, 255] 0
        = [1, 0, 0, 0, 0, 0, 0, 0, 0] := by
  refine ⟨by decide, ?_, by decide⟩
  decide

/-- C3 counterexample: `same_key` on the one-byte keys `[0]` and `[1]`
returns true, although their lengths agree and their `parse_key` outputs
(the whole keys, per the claim's reading) differ. -/
theorem same_key_claim_cex :
    sameKeyIn [0] [1] = true
    ∧ ¬(([0] : List Nat).length = ([1] : List Nat).length
        ∧ specParseKey [0] = specParseKey [1]) := by
  decide

/-- C3 as amended: `same_key(a, b)` is true iff the lengths agree and, when
that common length is at least 8, the bytes before the 8-byte suffix agree;
for equal lengths below 8 it is always true (the source compares `a`'s bytes
with themselves there), and it is false whenever the lengths differ. -/
theorem same_key_characterization (a b : List Nat) :
    sameKeyIn a b = true ↔
      a.length = b.length
      ∧ (8 ≤ a.length → a.take (a.length - 8) = b.take (b.length - 8)) := by
  unfold sameKeyIn checkedSub TIMESTAMP_SIZE
  by_cases hlen : a.length = b.length
  · rw [if_neg (by simp [hlen])]
    by_cases h8 : a.length < 8
    · rw [if_pos h8, if_pos (by omega : b.length < 8)]
      simp only [beq_self_eq_true]
      constructor
      · intro _
        exact ⟨hlen, by omega⟩
      · intro _
        trivial
    · rw [if_neg h8, if_neg (by omega : ¬b.length < 8)]
      simp only [beq_iff_eq]
      constructor
      · intro h
        exact ⟨hlen, fun _ => h⟩
      · rintro ⟨-, h⟩
        exact h (by omega)
  · rw [if_pos (by simp [hlen])]
    simp [hlen]

/-- C8. `longest_prefix` applied to a key and itself drops the final byte of
`parse_key`: on the key `[1, 2]` it returns `[1]`, not `parse_key([1,2]) =
[1, 2]` (the loop's no-mismatch index is initialized to `max - 1`). -/
theorem longest_prefix_self_drops_last :
    longestPrefixOp [1, 2] [1, 2] = [1] ∧ parseKey [1, 2] = [1, 2] := by
  decide

/-- C9. `has_suffix` applied to the key `[1, 2]` and itself returns false
even though `parse_key([1,2])` trivially ends with itself; the code compares
`src[suffix.len() - 1..]` with the suffix, which only matches when
`src.len() = 2 * suffix.len() - 1`, as the key `[3, 1, 2]` shows. -/
theorem has_suffix_self_false :
    hasSuffixOp [1, 2] [1, 2] = false
    ∧ parseKey [1, 2] = [1, 2]
    ∧ hasSuffixOp [3, 1, 2] [1, 2] = true := by
  decide

/-- C10. `Ord::cmp` on keys yields `Equal` exactly for bitwise-identical byte
contents (timestamp suffix included), while `==` (`same_key_in`) is coarser:
it is reflexive, yet some pairs are `==`-equal with `cmp` not `Equal`. -/
theorem key_cmp_eq_iff_bytes_identical :
    (∀ a b : List Nat, compareKeyIn a b = .eq ↔ a = b)
    ∧ (∀ a : List Nat, sameKeyIn a a = true)
    ∧ (∃ a b : List Nat, sameKeyIn a b = true ∧ compareKeyIn a b ≠ .eq) := by
  refine ⟨compareKeyIn_eq_iff, sameKeyIn_refl, ?_⟩
  exact ⟨[0, 0, 0, 0, 0, 0, 0, 0], [1, 0, 0, 0, 0, 0, 0, 0], by decide, by decide⟩

/-! ## Claim theorems: varint and value codec -/

/-- C5. For every `u64` value `x`, the varint encoding of `x` occupies at
most 10 bytes and `binary_uvarint` decodes it back to `x` together with the
number of bytes consumed. -/
theorem uvarint_roundtrip (x : Nat) (hx : x < 2 ^ 64) :
    binaryUvarint (putUvarint x) = (x, (putUvarint x).length)
    ∧ (putUvarint x).length ≤ 10 := by
  refine ⟨?_, putUvarint_length_le x 10 (by norm_num)
    (by calc x < 2 ^ 64 := hx
          _ ≤ 2 ^ (7 * 10) := by norm_num)⟩
  have h := binaryUvarint_putUvarint x [] hx
  simpa using h

/-- C5 witness: the largest `u64`, whose encoding needs all 10 bytes. -/
theorem uvarint_roundtrip_witness :
    binaryUvarint (putUvarint (2 ^ 64 - 1))
        = (2 ^ 64 - 1, (putUvarint (2 ^ 64 - 1)).length)
    ∧ (putUvarint (2 ^ 64 - 1)).length ≤ 10 :=
  uvarint_roundtrip (2 ^ 64 - 1) (by norm_num)

/-- C4. Decoding the bytes produced by `encode` gives back every field of
the value except `version`, which is reset to 0; `to_encoded` serializes the
same byte string as `encode`. -/
theorem value_decode_encode_roundtrip (v : Value) (he : v.expires_at < 2 ^ 64) :
    decodeValue (encodeValue v) = some { v with version := 0 }
    ∧ (toEncoded v).data = encodeValue v := by
  constructor
  · show decodeValue
        (v.meta :: v.user_meta :: (putUvarint v.expires_at ++ v.value)) = _
    simp only [decodeValue, binaryUvarint_putUvarint v.expires_at v.value he,
      List.drop_left]
  · simp [toEncoded, encodeValue]

/-- C4 witness: the spec's example value, with a nonzero pre-decode version
to exhibit the reset. -/
theorem value_decode_encode_roundtrip_witness :
    decodeValue (encodeValue ⟨1, 2, 300, 7, [104, 105]⟩)
        = some ⟨1, 2, 300, 0, [104, 105]⟩
    ∧ (toEncoded ⟨1, 2, 300, 7, [104, 105]⟩).data
        = encodeValue ⟨1, 2, 300, 7, [104, 105]⟩ :=
  value_decode_encode_roundtrip ⟨1, 2, 300, 7, [104, 105]⟩ (by norm_num)

theorem sizeVariant_eq_length (x : Nat) :
    sizeVariant x = (putUvarint x).length := by
  induction x using Nat.strongRecOn with
  | ind x ih =>
    by_cases h : x < 128
    · rw [putUvarint_lt x h, sizeVariant, if_pos]
      · rfl
      · rw [Nat.shiftRight_eq_div_pow]
        exact Nat.div_eq_of_lt (by omega)
    · have hlt : x >>> 7 < x := by
        rw [Nat.shiftRight_eq_div_pow]
        exact Nat.div_lt_self (by omega) (by norm_num)
      rw [putUvarint_ge x (by omega), sizeVariant, if_neg, List.length_cons,
        ih _ hlt]
      · omega
      · rw [Nat.shiftRight_eq_div_pow]
        have : 128 ≤ x := by omega
        have h1 : 1 ≤ x / 2 ^ 7 := (Nat.one_le_div_iff (by norm_num)).2 (by omega)
        omega

/-- C6 as amended: `encoded_size` equals the byte length of `encode`'s
output whenever that length fits in a `u32`; in general it is that length
reduced modulo `2 ^ 32` by the `as u32` cast. -/
theorem encoded_size_exact_below_u32 (v : Value)
    (h : (encodeValue v).length < 2 ^ 32) :
    encodedSize v = (encodeValue v).length := by
  have hlen : (encodeValue v).length
      = v.value.length + 2 + sizeVariant v.expires_at := by
    simp only [encodeValue, List.length_cons, List.length_append,
      sizeVariant_eq_length]
    omega
  rw [encodedSize, ← hlen, Nat.mod_eq_of_lt h]

/-- C6 witness: the spec's example value, encoded in 6 bytes. -/
theorem encoded_size_exact_below_u32_witness :
    encodedSize ⟨1, 2, 300, 7, [104, 105]⟩
      = (encodeValue ⟨1, 2, 300, 7, [104, 105]⟩).length :=
  encoded_size_exact_below_u32 ⟨1, 2, 300, 7, [104, 105]⟩ (by
    have h300 : putUvarint 300 = [172, 2] := by
      rw [putUvarint_ge 300 (by norm_num),
        show (300:Nat) >>> 7 = 2 from by decide,
        putUvarint_lt 2 (by norm_num)]
    simp [encodeValue, h300])

theorem encoded_size_wrap_of_length (l : List Nat) (hl : l.length = 2 ^ 32) :
    encodedSize ⟨0, 0, 0, 0, l⟩ ≠ (encodeValue ⟨0, 0, 0, 0, l⟩).length := by
  have hsv : sizeVariant 0 = 1 := by
    rw [sizeVariant, if_pos]
    rfl
  have hpu : putUvarint 0 = [0] := putUvarint_lt 0 (by norm_num)
  have h1 : encodedSize ⟨0, 0, 0, 0, l⟩ = 3 := by
    simp only [encodedSize, hsv, hl]
    norm_num
  have h2 : (encodeValue ⟨0, 0, 0, 0, l⟩).length = 2 ^ 32 + 3 := by
    simp only [encodeValue, hpu, List.length_cons, List.length_append,
      List.length_singleton, hl]
    norm_num
  rw [h1, h2]
  norm_num

/-- C6 counterexample: a payload of `2 ^ 32` bytes makes the `as u32` cast
wrap, so `encoded_size` returns 3 while the encoding is `2 ^ 32 + 3` bytes
long. -/
theorem encoded_size_u32_wrap_cex :
    encodedSize ⟨0, 0, 0, 0, List.replicate (2 ^ 32) 0⟩
      ≠ (encodeValue ⟨0, 0, 0, 0, List.replicate (2 ^ 32) 0⟩).length :=
  encoded_size_wrap_of_length _ (List.length_replicate _ _)

/-- C7 counterexample: two pointers at different addresses whose pointed-to
slices are both `[0]`: `PartialEq` (address identity) says they differ while
`same_key` on the pointed-to bytes says they agree. -/
theorem raw_key_pointer_eq_identity_cex :
    rawKeyPointerEq ⟨0, 1⟩ ⟨1, 1⟩ = false
    ∧ sameKeyIn (derefRawKey (fun _ => 0) ⟨0, 1⟩)
        (derefRawKey (fun _ => 0) ⟨1, 1⟩) = true := by
  constructor
  · decide
  · decide

/-- C7 as amended: `Ord::cmp` on `RawKeyPointer` does delegate to
`compare_key` on the pointed-to slices, but `PartialEq` compares only the raw
addresses (not even the lengths), and address identity disagrees with
`same_key` in both directions. -/
theorem raw_key_pointer_cmp_value_eq_identity (mem : Nat → Nat)
    (p q : RawKeyPointer) :
    rawKeyPointerCmp mem p q
      = compareKeyIn (derefRawKey mem p) (derefRawKey mem q)
    ∧ (rawKeyPointerEq p q = true ↔ p.ptr = q.ptr)
    ∧ (∃ m₂ p₂ q₂, rawKeyPointerEq p₂ q₂ = false
        ∧ sameKeyIn (derefRawKey m₂ p₂) (derefRawKey m₂ q₂) = true)
    ∧ (∃ m₃ p₃ q₃, rawKeyPointerEq p₃ q₃ = true
        ∧ sameKeyIn (derefRawKey m₃ p₃) (derefRawKey m₃ q₃) = false) := by
  refine ⟨rfl, by simp [rawKeyPointerEq], ?_, ?_⟩
  · exact ⟨fun _ => 0, ⟨0, 1⟩, ⟨1, 1⟩, by decide, by decide⟩
  · exact ⟨fun _ => 0, ⟨0, 1⟩, ⟨0, 9⟩, by decide, by decide⟩

end Kvstructs
